import Mathlib

/-!
Verification of the `rust-mcp-filesystem` service (`fs_service.rs` and
`fs_service/utils.rs`) against its natural-language specification.

Strings are shallowly embedded as `List Char` so that every operation of the
edit engine (line splitting, trimming, substring search, splicing) is an
executable, inductively analysable Lean function mirroring the Rust source
line by line.  Paths are embedded as a root flag plus a list of components,
mirroring `std::path::Path` component semantics (`..` is a `ParentDir`
component, `starts_with` is component-wise prefix, `join` with an absolute
argument replaces the base).  Filesystem-dependent behaviour
(`Path::canonicalize`) is abstracted as an oracle parameter returning
`Option`, exactly as the OS call either succeeds on an existing path or
fails.
-/

namespace FsService

/-- Character strings, embedded as lists of characters. -/
abbrev Str := List Char

/-! ## utils.rs: normalize_line_endings -/

/-- First pass of `normalize_line_endings`: Rust
`text.replace("\r\n", "\n")`, replacing each non-overlapping left-to-right
occurrence of CRLF by LF. -/
def replaceCRLF : Str → Str
  | '\r' :: '\n' :: rest => '\n' :: replaceCRLF rest
  | c :: rest => c :: replaceCRLF rest
  | [] => []

/-- Model of `normalize_line_endings` from `fs_service/utils.rs`:
`text.replace("\r\n", "\n").replace('\r', "\n")`.  The second `replace` has a
single-character pattern, hence is a character map. -/
def normalize_line_endings (s : Str) : Str :=
  (replaceCRLF s).map (fun c => if c = '\r' then '\n' else c)

/-! ## Line splitting and trimming (Rust `str::split('\n')`, `trim`,
`trim_end`, `char::is_whitespace`-based prefixes) -/

/-- Rust `str::split('\n').collect()`: splits on every newline; the result is
never empty ("" splits to [""], a trailing separator yields a trailing ""). -/
def splitNl : Str → List Str
  | [] => [[]]
  | c :: rest =>
    if c = '\n' then [] :: splitNl rest
    else
      match splitNl rest with
      | [] => [[c]]
      | l :: ls => (c :: l) :: ls

/-- Rust `slice.join("\n")`. -/
def joinNl : List Str → Str
  | [] => []
  | [l] => l
  | l :: ls => l ++ '\n' :: joinNl ls

/-- Rust `str::trim_start()` (whitespace per `char::is_whitespace`; this
development only reasons about ASCII content, where Lean's
`Char.isWhitespace` agrees with Rust). -/
def trimStart (s : Str) : Str := s.dropWhile (fun c => c.isWhitespace)

/-- Rust `str::trim_end()`. -/
def trimEnd (s : Str) : Str := (s.reverse.dropWhile (fun c => c.isWhitespace)).reverse

/-- Rust `str::trim()`. -/
def trim (s : Str) : Str := trimStart (trimEnd s)

/-- Rust `s.chars().take_while(|&c| c.is_whitespace()).collect::<String>()`:
the leading whitespace of a line. -/
def leadingWs (s : Str) : Str := s.takeWhile (fun c => c.isWhitespace)

/-! ## Substring search (Rust `str::contains` / `str::replacen(_, _, 1)`) -/

/-- Index of the first occurrence of `n` in `h`, if any (Rust `str::find`). -/
def firstOcc (n : Str) : Str → Option Nat
  | [] => if n.isEmpty then some 0 else none
  | c :: rest =>
    if n.isPrefixOf (c :: rest) then some 0
    else (firstOcc n rest).map (· + 1)

/-- Rust `h.contains(n)` for string patterns. -/
def containsSub (h n : Str) : Bool := (firstOcc n h).isSome

/-- Whether `n` occurs in `h` at index `i`. -/
def isSubAt (n h : Str) (i : Nat) : Bool := n.isPrefixOf (h.drop i)

/-- Rust `h.replacen(n, repl, 1)`: replace the first occurrence of `n` (if
any) by `repl`. -/
def replacen1 (h n repl : Str) : Str :=
  match firstOcc n h with
  | some i => h.take i ++ repl ++ h.drop (i + n.length)
  | none => h

/-! ## fs_service.rs: detect_line_ending -/

/-- Model of `detect_line_ending` (fs_service.rs lines 124-132): `"\r\n"` if any CRLF
is present, else `"\r"` if any lone CR is present, else `"\n"`. -/
def detect_line_ending (s : Str) : Str :=
  if containsSub s ['\r', '\n'] then ['\r', '\n']
  else if s.contains '\r' then ['\r']
  else ['\n']

/-! ## tools/edit_file.rs: EditOperation -/

/-- Model of `EditOperation` (`{old_text, new_text}`). -/
structure EditOperation where
  old_text : Str
  new_text : Str
deriving DecidableEq, Repr, Inhabited

/-! ## fs_service.rs: apply_file_edits — the edit engine core
(lines 474-619), modelled as pure functions of the file content. -/

/-- One candidate window of the fuzzy scan: Rust
`old_lines.iter().enumerate().all(|(j, old_line)| old_line.trim() ==
potential_match[j].trim())` where `potential_match = &content_lines[i..i +
old_lines.len()]`. -/
def windowMatches (content_lines old_lines : List Str) (i : Nat) : Bool :=
  (old_lines.zip ((content_lines.drop i).take old_lines.length)).all
    (fun p => trim p.1 = trim p.2)

/-- The fuzzy scan `for i in 0..=content_lines.len() - old_lines.len()`,
returning the first matching window start (the loop `break`s at the first
match).  Only invoked when `old_lines.length ≤ content_lines.length`
(otherwise the Rust subtraction underflows, modelled separately). -/
def findWindow (content_lines old_lines : List Str) : Option Nat :=
  (List.range (content_lines.length - old_lines.length + 1)).find?
    (windowMatches content_lines old_lines)

/-- The indent character chosen for relative indentation: tab if the base
indentation contains a tab, else space. -/
def indentChar (original_indent : Str) : Char :=
  if original_indent.contains '\t' then '\t' else ' '

/-- Reconstruction of the replacement lines in the fuzzy branch
(fs_service.rs lines 531-573): the first line keeps the original indentation
of the first matched line; each later line gets that base indentation plus
`new_indent.len() - old_indent.len()` copies (never negative) of the indent
character. -/
def rebuildLines (original_indent : Str) (old_lines : List Str)
    (normalized_new : Str) : List Str :=
  (splitNl normalized_new).enum.map (fun p =>
    let j := p.1
    let line := p.2
    if j = 0 then original_indent ++ trimStart line
    else
      let old_indent := leadingWs ((old_lines.get? j).getD [])
      let new_indent := leadingWs line
      let relative_indent :=
        if new_indent.length ≥ old_indent.length then
          new_indent.length - old_indent.length
        else 0
      original_indent ++ List.replicate relative_indent (indentChar original_indent)
        ++ trimStart line)

/-- Rust `content_lines.splice(i..i + len, new_lines)`. -/
def spliceList (ls : List Str) (i len : Nat) (repl : List Str) : List Str :=
  ls.take i ++ repl ++ ls.drop (i + len)

/-- Outcome of applying one `EditOperation` to the current content. -/
inductive EditStep where
  /-- The edit matched and produced new content. -/
  | ok (content : Str)
  /-- No exact or fuzzy match: the Rust code returns an internal error whose
  message embeds `edit.old_text`. -/
  | noMatch (oldText : Str)
  /-- The Rust code panics: when no exact match exists and the old text has
  more lines than the content, `content_lines.len() - old_lines.len()`
  underflows `usize` (debug: subtraction overflow panic; release: wrapped
  bound followed by an out-of-range slice `&content_lines[i..i+old_len]`). -/
  | panicked
deriving DecidableEq, Repr

/-- The body of the per-edit loop of `apply_file_edits` (lines 491-589). -/
def applyOneEdit (modified_content : Str) (edit : EditOperation) : EditStep :=
  let normalized_old := normalize_line_endings edit.old_text
  let normalized_new := normalize_line_endings edit.new_text
  if containsSub modified_content normalized_old then
    .ok (replacen1 modified_content normalized_old normalized_new)
  else
    let old_lines := splitNl (trimEnd normalized_old)
    let content_lines := splitNl (trimEnd modified_content)
    if content_lines.length < old_lines.length then
      .panicked
    else
      match findWindow content_lines old_lines with
      | some i =>
        let original_indent := leadingWs ((content_lines.get? i).getD [])
        let new_lines := rebuildLines original_indent old_lines normalized_new
        .ok (joinNl (spliceList content_lines i old_lines.length new_lines))
      | none => .noMatch edit.old_text

/-- The sequential edit loop `for edit in edits` of `apply_file_edits`: each
edit is applied to the result of the previous one; the first failure aborts
the loop. -/
def applyEditsLoop (content : Str) : List EditOperation → EditStep
  | [] => .ok content
  | e :: rest =>
    match applyOneEdit content e with
    | .ok c => applyEditsLoop c rest
    | .noMatch t => .noMatch t
    | .panicked => .panicked

/-- Content reached after successfully applying a prefix of the edit batch:
`some c` when every edit in the list matched, `none` when one failed.  Used
to state which edits the loop attempted before a failure. -/
def contentAfter (content : Str) : List EditOperation → Option Str
  | [] => some content
  | e :: rest =>
    match applyOneEdit content e with
    | .ok c => contentAfter c rest
    | _ => none

/-! ## Diff fencing (fs_service.rs lines 599-608) -/

/-- The backtick character (code point 96). -/
def backtick : Char := Char.ofNat 96

/-- The `while diff.contains("`".repeat(num_backticks)) { num_backticks += 1 }`
loop, with explicit fuel.  A pattern longer than the text never occurs in it,
so with fuel `d.length + 2` starting from 3 the loop always exits through the
`else` branch (proved below); the fuel only makes the recursion structural. -/
def fenceLenAux (d : Str) : Nat → Nat → Nat
  | 0, n => n
  | fuel + 1, n =>
    if containsSub d (List.replicate n backtick) then fenceLenAux d fuel (n + 1)
    else n

/-- Number of backticks in the fence wrapped around the generated diff:
starts at 3 and grows while the diff still contains a backtick run of that
length. -/
def fenceLen (d : Str) : Nat := fenceLenAux d (d.length + 2) 3

/-- The fenced diff `format!("{}diff\n{}{}\n\n", ticks, diff, ticks)`. -/
def formatDiff (d : Str) : Str :=
  List.replicate (fenceLen d) backtick ++ ("diff\n".toList) ++ d
    ++ List.replicate (fenceLen d) backtick ++ ("\n\n".toList)

/-! ## apply_file_edits end-to-end (lines 474-619)

The filesystem read has already happened (the content is a parameter); the
unified-diff generator (`similar::TextDiff`, an external crate) is a
function parameter; the single possible write is returned as data. -/

/-- Rust `modified_content.replace("\n", original_line_ending)`: replace-all
with a one-character pattern. -/
def replaceNlWith (le : Str) : Str → Str
  | [] => []
  | c :: rest => (if c = '\n' then le else [c]) ++ replaceNlWith le rest

/-- A write performed by `apply_file_edits`: target path (as a string) and
the bytes written. -/
structure WriteOp where
  target : Str
  content : Str
deriving DecidableEq, Repr

/-- Result value of `apply_file_edits`. -/
inductive ApplyResult where
  /-- `Ok(formatted_diff)`. -/
  | ok (formattedDiff : Str)
  /-- `Err(RpcError...)` whose message embeds the unmatched edit's
  `old_text`. -/
  | err (oldText : Str)
  /-- The process panics (fuzzy-scan bound underflow). -/
  | panicked
deriving DecidableEq, Repr

/-- Model of `apply_file_edits` (fs_service.rs lines 474-619) as a pure function:
given the diff generator, the validated path, the file's current content,
the edit batch, `dry_run` and `save_to`, returns the result together with
the list of filesystem writes performed (empty or a single write). -/
def apply_file_edits (mkDiff : Str → Str → Str) (valid_path : Str)
    (content₀ : Str) (edits : List EditOperation) (dry_run : Option Bool)
    (save_to : Option Str) : ApplyResult × List WriteOp :=
  let original_line_ending := detect_line_ending content₀
  let content_str := normalize_line_endings content₀
  match applyEditsLoop content_str edits with
  | .noMatch t => (.err t, [])
  | .panicked => (.panicked, [])
  | .ok modified_content =>
    let diff := mkDiff content_str modified_content
    let formatted_diff := formatDiff diff
    let is_dry_run := dry_run.getD false
    if is_dry_run then (.ok formatted_diff, [])
    else
      (.ok formatted_diff,
        [⟨save_to.getD valid_path, replaceNlWith original_line_ending modified_content⟩])

/-! ## Path model (std::path semantics as used by validate_path and
unzip_file) -/

/-- A path component after `Path::components()` normalization: `..`
(`Component::ParentDir`) or a normal name.  `.` components are dropped by
`components()` and never produced by the operations modelled here. -/
inductive PComp where
  | up
  | name (s : Str)
deriving DecidableEq, Repr

/-- A path: whether it is absolute (starts with `Component::RootDir`) plus
its remaining components in order. -/
structure RPath where
  abs : Bool
  comps : List PComp
deriving DecidableEq, Repr

/-- Model of `PathBuf::join`: an absolute argument replaces the base entirely;
otherwise the components are appended. -/
def pathJoin (base p : RPath) : RPath :=
  if p.abs then p else ⟨base.abs, base.comps ++ p.comps⟩

/-- Model of `Path::starts_with`: component-wise prefix (the root component must
match too). -/
def pathStartsWith (p base : RPath) : Bool :=
  p.abs = base.abs && base.comps.isPrefixOf p.comps

/-- Model of `expand_home` from `fs_service/utils.rs`: when a home directory is
available and the path starts with the single component `~`, the remainder
is joined onto the home directory; otherwise the path is returned
unchanged. -/
def expand_home (home : RPath) (p : RPath) : RPath :=
  match p.abs, p.comps with
  | false, .name ['~'] :: rest => pathJoin home ⟨false, rest⟩
  | _, _ => p

/-- Model of `normalize_path` from `fs_service/utils.rs`:
`path.canonicalize().unwrap_or_else(|_| path.to_path_buf())`.  The OS call
`canonicalize` is abstracted as an oracle: `some q` when the path exists and
resolves to `q`, `none` when canonicalization fails (e.g. the path does not
exist).  On failure the path is returned verbatim — no syntactic `..`
resolution happens. -/
def normalize_path (canon : RPath → Option RPath) (p : RPath) : RPath :=
  (canon p).getD p

/-- Lines 62-69 of `validate_path`: home expansion followed by resolution
against the current working directory when the expanded path is still
relative. -/
def requestedAbsolute (cwd home : RPath) (requested : RPath) : RPath :=
  let expanded := expand_home home requested
  if expanded.abs then expanded else pathJoin cwd expanded

/-- Result of `validate_path`: the absolute path, or the Access-denied
error.  (The error-message detail of whether a symlink was seen on the way
is not modelled; it does not change which variant is returned, because an
I/O failure of the advisory symlink walk is ignored here.) -/
inductive ValidateResult where
  | ok (p : RPath)
  | accessDenied
deriving DecidableEq, Repr

/-- Model of `validate_path` (fs_service.rs lines 60-98): expand `~`, make absolute
against the cwd, normalize via `canonicalize`-with-fallback, then accept iff
some allowed directory is a component-wise prefix of the normalized path
(comparing against both the allowed directory as configured and its
normalized form).  On success the *absolute* (not the normalized) path is
returned. -/
def validate_path (canon : RPath → Option RPath) (allowed : List RPath)
    (cwd home : RPath) (requested : RPath) : ValidateResult :=
  let absolute := requestedAbsolute cwd home requested
  let normalized := normalize_path canon absolute
  if allowed.any (fun dir =>
      pathStartsWith normalized dir
        || pathStartsWith normalized (normalize_path canon dir)) then
    .ok absolute
  else
    .accessDenied

/-- Modelled from the spec: the *syntactic normalization* the specification
attributes to non-existing paths ("non-existing paths are left syntactically
normalized") — lexical resolution of `..` components without consulting the
filesystem.  Used only to compare the code's behaviour with the spec's
words; the source contains no such function. -/
def specSyntacticNormalize (p : RPath) : RPath :=
  ⟨p.abs, go p.abs [] p.comps⟩
where
  /-- Fold components, cancelling a normal name against a following `..`;
  on an absolute path a leading `..` disappears (as the OS does at `/`). -/
  go (abs : Bool) (acc : List PComp) : List PComp → List PComp
    | [] => acc.reverse
    | .up :: rest =>
      match acc with
      | .name _ :: acc' => go abs acc' rest
      | _ => if abs then go abs acc rest else go abs (.up :: acc) rest
    | .name s :: rest => go abs (.name s :: acc) rest

/-- The destination path `unzip_file` writes a zip entry to
(fs_service.rs line 314): `target_dir_path.join(entry.filename())` — the
entry name is joined verbatim, with no validation of the joined result. -/
def unzipEntryDest (target_dir : RPath) (entryName : RPath) : RPath :=
  pathJoin target_dir entryName

/-! ## zip_directory pattern matching (fs_service.rs lines 160-176)

The external `glob` crate is modelled for the fragment the claims need:
patterns built from literal characters and `*`, matched with the crate's
default options (case-sensitive, `*` may cross `/`).  `to_lowercase` is
modelled per-character (ASCII-faithful). -/

/-- Rust `str::to_lowercase`, per character (ASCII-faithful). -/
def toLowerStr (s : Str) : Str := s.map Char.toLower

/-- Glob matching for patterns of literals and `*` under the `glob` crate's
default `MatchOptions` (case-sensitive; `*` matches any, possibly empty,
character sequence including separators).  Structural on the pattern: `*`
matches iff the rest of the pattern matches some suffix of the text. -/
def globMatch : Str → Str → Bool
  | [], t => t.isEmpty
  | p :: ps, t =>
    if p = '*' then t.tails.any (fun suf => globMatch ps suf)
    else
      match t with
      | [] => false
      | c :: ts => p = c && globMatch ps ts

/-- The pattern actually used by `zip_directory` (lines 160-164): a pattern
containing `*` is lowercased; one without `*` is lowercased and wrapped in
`*...*`. -/
def zipDirUpdatedPattern (pattern : Str) : Str :=
  if pattern.contains '*' then toLowerStr pattern
  else '*' :: (toLowerStr pattern ++ ['*'])

/-- Whether `zip_directory` selects a validated entry whose full path
renders as `path` (line 176): the glob built from the updated pattern is
matched against `path.display().to_string()` — the path is *not*
lowercased. -/
def zipDirSelects (pattern path : Str) : Bool :=
  globMatch (zipDirUpdatedPattern pattern) path

/-- Modelled from the spec: "a pattern without a `*` is treated as a
case-insensitive substring match" — the pattern occurs in the entry's path
regardless of letter case.  Comparator for claim C9 only; the source
implements `zipDirSelects` instead. -/
def specCaseInsensitiveSubstr (pattern path : Str) : Bool :=
  containsSub (toLowerStr path) (toLowerStr pattern)

/-- Specification-side predicate for line-ending preservation: every line
break in the string is a full `\r\n` pair — each `\r` is immediately
followed by `\n` and each `\n` immediately preceded by `\r`. -/
def crlfOnly : Str → Bool
  | [] => true
  | c :: rest =>
    if c = '\r' then
      match rest with
      | [] => false
      | c2 :: rest2 => if c2 = '\n' then crlfOnly rest2 else false
    else if c = '\n' then false
    else crlfOnly rest

/-! ## Helper lemmas: substring search -/

theorem isPrefixOf_length_le (n : Str) : ∀ (h : Str), n.isPrefixOf h = true →
    n.length ≤ h.length := by
  induction n with
  | nil => intro h _; simp
  | cons a as ih =>
    intro h hp
    cases h with
    | nil => simp [List.isPrefixOf] at hp
    | cons b bs =>
      simp only [List.isPrefixOf, Bool.and_eq_true] at hp
      simpa using ih bs hp.2

theorem firstOcc_some (n : Str) : ∀ (h : Str) (i : Nat), firstOcc n h = some i →
    n.isPrefixOf (h.drop i) = true ∧ ∀ j, j < i → n.isPrefixOf (h.drop j) = false := by
  intro h
  induction h with
  | nil =>
    intro i hf
    unfold firstOcc at hf
    by_cases he : n.isEmpty
    · simp only [he, if_true, Option.some.injEq] at hf
      subst hf
      have hn : n = [] := by cases n <;> simp_all
      exact ⟨by simp [hn, List.isPrefixOf], fun j hj => by omega⟩
    · simp [he] at hf
  | cons c rest ih =>
    intro i hf
    unfold firstOcc at hf
    by_cases hp : n.isPrefixOf (c :: rest) = true
    · simp only [hp, if_true, Option.some.injEq] at hf
      subst hf
      exact ⟨by simpa using hp, fun j hj => by omega⟩
    · rw [if_neg (by simp [hp])] at hf
      cases hfo : firstOcc n rest with
      | none => rw [hfo] at hf; simp at hf
      | some i' =>
        rw [hfo] at hf
        simp at hf
        subst hf
        obtain ⟨h1, h2⟩ := ih i' hfo
        refine ⟨by simpa using h1, ?_⟩
        intro j hj
        cases j with
        | zero => rw [List.drop_zero]; exact Bool.eq_false_iff.mpr hp
        | succ j' => simpa using h2 j' (by omega)

theorem containsSub_iff (h n : Str) :
    containsSub h n = true ↔ ∃ i, n.isPrefixOf (h.drop i) = true := by
  constructor
  · intro hc
    unfold containsSub at hc
    cases hfo : firstOcc n h with
    | none => rw [hfo] at hc; simp at hc
    | some i => exact ⟨i, (firstOcc_some n h i hfo).1⟩
  · intro ⟨i, hi⟩
    unfold containsSub
    induction h generalizing i with
    | nil =>
      have : n = [] := by
        cases n with
        | nil => rfl
        | cons a as => simp [List.isPrefixOf] at hi
      simp [firstOcc, this]
    | cons c rest ihh =>
      unfold firstOcc
      by_cases hp : n.isPrefixOf (c :: rest) = true
      · simp [hp]
      · rw [if_neg (by simp [hp])]
        cases i with
        | zero => rw [List.drop_zero] at hi; exact absurd hi hp
        | succ i' =>
          simp only [List.drop_succ_cons] at hi
          have := ihh i' hi
          cases hfo : firstOcc n rest with
          | none => rw [hfo] at this; simp at this
          | some k => simp [hfo]

theorem containsSub_length_le (h n : Str) (hc : containsSub h n = true) :
    n.length ≤ h.length := by
  obtain ⟨i, hi⟩ := (containsSub_iff h n).mp hc
  calc n.length ≤ (h.drop i).length := isPrefixOf_length_le n _ hi
    _ ≤ h.length := by simp

/-! ## Helper lemmas: fence length -/

theorem fenceLenAux_spec (d : Str) : ∀ (fuel n : Nat), d.length + 2 ≤ fuel + n →
    n ≤ fenceLenAux d fuel n
    ∧ containsSub d (List.replicate (fenceLenAux d fuel n) backtick) = false
    ∧ ∀ m, n ≤ m → m < fenceLenAux d fuel n →
        containsSub d (List.replicate m backtick) = true := by
  intro fuel
  induction fuel with
  | zero =>
    intro n hn
    simp only [fenceLenAux]
    refine ⟨le_rfl, ?_, fun m h1 h2 => by omega⟩
    cases hc : containsSub d (List.replicate n backtick) with
    | false => rfl
    | true =>
      have := containsSub_length_le d _ hc
      simp only [List.length_replicate] at this
      omega
  | succ fuel ih =>
    intro n hn
    simp only [fenceLenAux]
    by_cases hc : containsSub d (List.replicate n backtick) = true
    · rw [if_pos hc]
      have hnle : n ≤ d.length := by
        have := containsSub_length_le d _ hc
        simpa using this
      obtain ⟨ih1, ih2, ih3⟩ := ih (n + 1) (by omega)
      refine ⟨by omega, ih2, ?_⟩
      intro m h1 h2
      rcases Nat.eq_or_lt_of_le h1 with heq | hlt
      · rwa [heq] at hc
      · exact ih3 m hlt h2
    · rw [if_neg hc]
      exact ⟨le_rfl, Bool.eq_false_iff.mpr hc, fun m h1 h2 => by omega⟩

/-! ## Claim C8 -/

/-- C8: diff fencing.  The backtick fence wrapped around the generated diff
has length equal to the minimum `n ≥ 3` such that the diff body contains no
run of `n` consecutive backticks (a run of `n` backticks is exactly an
occurrence of the substring of `n` backticks), hence strictly greater than
the longest backtick run in the body; in particular a body containing a
three-backtick run forces a fence of four or more. -/
theorem c8_fence_minimality (d : Str) :
    3 ≤ fenceLen d
    ∧ containsSub d (List.replicate (fenceLen d) backtick) = false
    ∧ (∀ m, 3 ≤ m → m < fenceLen d →
        containsSub d (List.replicate m backtick) = true)
    ∧ (containsSub d (List.replicate 3 backtick) = true → 4 ≤ fenceLen d) := by
  have hfl : fenceLen d = fenceLenAux d (d.length + 2) 3 := rfl
  obtain ⟨h1, h2, h3⟩ := fenceLenAux_spec d (d.length + 2) 3 (by omega)
  rw [← hfl] at h1 h2 h3
  refine ⟨h1, h2, h3, ?_⟩
  intro hrun
  by_contra hlt
  have he : fenceLen d = 3 := by omega
  rw [he, hrun] at h2
  simp at h2

/-- C8 witness: a concrete diff body with a three-backtick run gets a fence
of at least four backticks. -/
theorem c8_fence_minimality_witness : 4 ≤ fenceLen ("ab```cd".toList) :=
  (c8_fence_minimality ("ab```cd".toList)).2.2.2 (by decide)

/-! ## Claim C5 -/

/-- C5: fuzzy-match indentation reconstruction.  Applying to content
`"\tfoo\n\tbar"` the single edit with old text `"foo\nbar"` and new text
`"foo\nbaz"` produces `"\tfoo\n\tbaz"`: the first replacement line keeps the
original tab indentation of the first matched line, and the second line gets
that base indentation plus the non-negative leading-whitespace difference
(here zero), using tab as the indent character because the base indentation
contains a tab.  Stated both on the edit loop and on the full
`apply_file_edits` (with a trivial diff generator), where the non-dry-run
write carries exactly the reconstructed content. -/
theorem c5_fuzzy_indentation :
    applyEditsLoop ("\tfoo\n\tbar".toList)
        [⟨"foo\nbar".toList, "foo\nbaz".toList⟩] = .ok ("\tfoo\n\tbaz".toList)
    ∧ apply_file_edits (fun _ _ => []) ("f".toList) ("\tfoo\n\tbar".toList)
        [⟨"foo\nbar".toList, "foo\nbaz".toList⟩] (some false) none
      = (.ok (formatDiff []), [⟨"f".toList, "\tfoo\n\tbaz".toList⟩]) := by
  decide

/-! ## Claim C2 -/

/-- C2 counterexample: a non-existing path containing `..` components whose
syntactically normalized form escapes the sandbox is nevertheless accepted.
With sandbox root `/sand` (the only existing path, so canonicalization fails
on the request), the request `/sand/a/../../etc/x` is returned as `ok` —
`validate_path` does not resolve `..` syntactically, it only checks a
component-wise prefix — although its syntactic normalization `/etc/x` is not
a descendant of any root, where the claim demands AccessDenied. -/
theorem c2_counterexample :
    validate_path
        (fun q => if q = ⟨true, [.name ("sand".toList)]⟩ then some q else none)
        [⟨true, [.name ("sand".toList)]⟩]
        ⟨true, [.name ("sand".toList)]⟩ ⟨true, [.name ("home".toList)]⟩
        ⟨true, [.name ("sand".toList), .name ("a".toList), .up, .up,
                .name ("etc".toList), .name ("x".toList)]⟩
      = .ok ⟨true, [.name ("sand".toList), .name ("a".toList), .up, .up,
                .name ("etc".toList), .name ("x".toList)]⟩
    ∧ specSyntacticNormalize
        ⟨true, [.name ("sand".toList), .name ("a".toList), .up, .up,
                .name ("etc".toList), .name ("x".toList)]⟩
      = ⟨true, [.name ("etc".toList), .name ("x".toList)]⟩
    ∧ pathStartsWith
        (specSyntacticNormalize
          ⟨true, [.name ("sand".toList), .name ("a".toList), .up, .up,
                  .name ("etc".toList), .name ("x".toList)]⟩)
        ⟨true, [.name ("sand".toList)]⟩ = false := by
  decide

/-- C2 amended: `validate_path` returns AccessDenied (and never a path)
exactly when the normalized request — canonicalized when the oracle
succeeds, otherwise the home-expanded cwd-resolved path *verbatim*, with no
syntactic `..` resolution — is a component-wise prefix-extension of no
configured root (neither of the root as configured nor of its normalized
form).  Non-existing requests containing `..` are accepted whenever their
verbatim form starts with a root, even if resolving the `..` would leave the
sandbox. -/
theorem c2_guard_denies_iff (canon : RPath → Option RPath) (allowed : List RPath)
    (cwd home p : RPath) :
    validate_path canon allowed cwd home p = .accessDenied
      ↔ ∀ dir ∈ allowed,
          pathStartsWith (normalize_path canon (requestedAbsolute cwd home p)) dir = false
          ∧ pathStartsWith (normalize_path canon (requestedAbsolute cwd home p))
              (normalize_path canon dir) = false := by
  have hval : validate_path canon allowed cwd home p
      = (if (allowed.any (fun dir =>
            pathStartsWith (normalize_path canon (requestedAbsolute cwd home p)) dir
              || pathStartsWith (normalize_path canon (requestedAbsolute cwd home p))
                  (normalize_path canon dir))) = true
         then ValidateResult.ok (requestedAbsolute cwd home p)
         else ValidateResult.accessDenied) := rfl
  rw [hval]
  by_cases hany : (allowed.any (fun dir =>
      pathStartsWith (normalize_path canon (requestedAbsolute cwd home p)) dir
        || pathStartsWith (normalize_path canon (requestedAbsolute cwd home p))
            (normalize_path canon dir))) = true
  · rw [if_pos hany]
    constructor
    · intro hcon; cases hcon
    · intro hall
      obtain ⟨dir, hdir, hor⟩ := List.any_eq_true.mp hany
      obtain ⟨ha, hb⟩ := hall dir hdir
      rw [Bool.or_eq_true] at hor
      rcases hor with h | h
      · rw [ha] at h; cases h
      · rw [hb] at h; cases h
  · rw [if_neg hany]
    have hfalse := Bool.eq_false_iff.mpr hany
    constructor
    · intro _ dir hdir
      have h := List.any_eq_false.mp hfalse dir hdir
      rw [Bool.or_eq_true] at h
      push_neg at h
      exact ⟨Bool.eq_false_iff.mpr h.1, Bool.eq_false_iff.mpr h.2⟩
    · intro _; rfl

/-- C2 amended witness: a request outside the root is denied. -/
theorem c2_guard_denies_iff_witness :
    validate_path (fun _ => none) [⟨true, [.name ("sand".toList)]⟩]
        ⟨true, []⟩ ⟨true, []⟩ ⟨true, [.name ("other".toList)]⟩ = .accessDenied :=
  (c2_guard_denies_iff (fun _ => none) [⟨true, [.name ("sand".toList)]⟩]
    ⟨true, []⟩ ⟨true, []⟩ ⟨true, [.name ("other".toList)]⟩).mpr (by decide)

/-! ## Claim C4 -/

/-- C4 counterexample: a caller-supplied relative path is *not* rejected
before the sandbox check.  With cwd `/sand` (a sandbox root), the relative
request `file.txt` is resolved against the cwd and then accepted — the
operation returns a path, performs the sandbox-root check, and resolves
against the current working directory, all of which the claim says must not
happen for a relative path. -/
theorem c4_counterexample :
    validate_path (fun _ => none) [⟨true, [.name ("sand".toList)]⟩]
        ⟨true, [.name ("sand".toList)]⟩ ⟨true, [.name ("home".toList)]⟩
        ⟨false, [.name ("file.txt".toList)]⟩
      = .ok ⟨true, [.name ("sand".toList), .name ("file.txt".toList)]⟩ := by
  decide

/-- C4 amended: relative paths are not rejected; `validate_path` resolves a
(home-expanded) relative path against the current working directory and then
validates the joined path exactly as if it had been supplied absolute. -/
theorem c4_relative_resolved_against_cwd (canon : RPath → Option RPath)
    (allowed : List RPath) (cwd home p : RPath)
    (hcwd : cwd.abs = true) (hrel : (expand_home home p).abs = false) :
    validate_path canon allowed cwd home p
      = validate_path canon allowed cwd home (pathJoin cwd (expand_home home p)) := by
  have hjoin_abs : (pathJoin cwd (expand_home home p)).abs = true := by
    unfold pathJoin
    rw [if_neg (by simp [hrel])]
    exact hcwd
  have hexp : expand_home home (pathJoin cwd (expand_home home p))
      = pathJoin cwd (expand_home home p) := by
    rcases hq : pathJoin cwd (expand_home home p) with ⟨qa, qc⟩
    rw [hq] at hjoin_abs
    simp only at hjoin_abs
    subst hjoin_abs
    rfl
  have habs1 : requestedAbsolute cwd home p = pathJoin cwd (expand_home home p) := by
    unfold requestedAbsolute
    rw [if_neg (by simp [hrel])]
  have habs2 : requestedAbsolute cwd home (pathJoin cwd (expand_home home p))
      = pathJoin cwd (expand_home home p) := by
    unfold requestedAbsolute
    rw [hexp, if_pos hjoin_abs]
  unfold validate_path
  rw [habs1, habs2]

/-- C4 amended witness: concrete relative request equals the validation of
its cwd-joined form. -/
theorem c4_relative_resolved_against_cwd_witness :
    validate_path (fun _ => none) [⟨true, [.name ("sand".toList)]⟩]
        ⟨true, [.name ("sand".toList)]⟩ ⟨true, [.name ("home".toList)]⟩
        ⟨false, [.name ("file.txt".toList)]⟩
      = validate_path (fun _ => none) [⟨true, [.name ("sand".toList)]⟩]
          ⟨true, [.name ("sand".toList)]⟩ ⟨true, [.name ("home".toList)]⟩
          (pathJoin ⟨true, [.name ("sand".toList)]⟩
            (expand_home ⟨true, [.name ("home".toList)]⟩
              ⟨false, [.name ("file.txt".toList)]⟩)) :=
  c4_relative_resolved_against_cwd (fun _ => none) [⟨true, [.name ("sand".toList)]⟩]
    ⟨true, [.name ("sand".toList)]⟩ ⟨true, [.name ("home".toList)]⟩
    ⟨false, [.name ("file.txt".toList)]⟩ (by decide) (by decide)

/-! ## Claim C1 -/

/-- C1: the sandbox containment invariant fails in `unzip_file` — evaluation
of the code at the failing input (zip-slip).  The extraction destination is
`target_dir_path.join(entry.filename())` with no validation of the joined
path: a zip entry named `../../evil.txt` extracted into the validated target
`/sand/out` (sandbox root `/sand`) is written to a location whose resolved
form `/evil.txt` is outside every sandbox root, and an entry with an
absolute name replaces the target directory entirely. -/
theorem c1_unzip_zip_slip :
    unzipEntryDest ⟨true, [.name ("sand".toList), .name ("out".toList)]⟩
        ⟨false, [.up, .up, .name ("evil.txt".toList)]⟩
      = ⟨true, [.name ("sand".toList), .name ("out".toList), .up, .up,
                .name ("evil.txt".toList)]⟩
    ∧ specSyntacticNormalize
        (unzipEntryDest ⟨true, [.name ("sand".toList), .name ("out".toList)]⟩
          ⟨false, [.up, .up, .name ("evil.txt".toList)]⟩)
      = ⟨true, [.name ("evil.txt".toList)]⟩
    ∧ pathStartsWith
        (specSyntacticNormalize
          (unzipEntryDest ⟨true, [.name ("sand".toList), .name ("out".toList)]⟩
            ⟨false, [.up, .up, .name ("evil.txt".toList)]⟩))
        ⟨true, [.name ("sand".toList)]⟩ = false
    ∧ unzipEntryDest ⟨true, [.name ("sand".toList), .name ("out".toList)]⟩
        ⟨true, [.name ("etc".toList), .name ("evil".toList)]⟩
      = ⟨true, [.name ("etc".toList), .name ("evil".toList)]⟩ := by
  decide

/-! ## Helper lemmas: glob matching -/

theorem toLower_star (c : Char) (h : c.toLower = '*') : c = '*' := by
  unfold Char.toLower at h
  simp only [] at h
  by_cases hc : c.toNat >= 65 ∧ c.toNat <= 90
  case pos =>
    rw [if_pos hc] at h
    exfalso
    have hval : (c.toNat + 32).isValidChar := Or.inl (by omega)
    rw [Char.ofNat, dif_pos hval] at h
    have h2 := congrArg Char.toNat h
    rw [show (Char.ofNatAux (c.toNat + 32) hval).toNat = c.toNat + 32 from rfl] at h2
    rw [show ('*').toNat = 42 from rfl] at h2
    omega
  case neg =>
    rw [if_neg hc] at h
    exact h

theorem toLowerStr_no_star (pattern : Str) (h : pattern.contains '*' = false) :
    ∀ c ∈ toLowerStr pattern, c ≠ '*' := by
  intro c hc heq
  subst heq
  obtain ⟨a, ha, hla⟩ := List.mem_map.mp hc
  have : a = '*' := toLower_star a hla
  subst this
  rw [show (List.contains pattern '*') = List.elem '*' pattern from rfl] at h
  rw [List.elem_eq_true_of_mem ha] at h
  cases h

theorem globMatch_lit_star : ∀ (lit : Str), (∀ c ∈ lit, c ≠ '*') →
    ∀ t : Str, globMatch (lit ++ ['*']) t = lit.isPrefixOf t := by
  intro lit
  induction lit with
  | nil =>
    intro _ t
    have hmem : ([] : Str) ∈ t.tails := (List.mem_tails _ _).mpr List.nil_suffix
    have hany : t.tails.any (fun suf => globMatch [] suf) = true :=
      List.any_eq_true.mpr ⟨[], hmem, by simp [globMatch]⟩
    simp [globMatch, List.isPrefixOf, hany]
  | cons a as ih =>
    intro hstar t
    have ha : a ≠ '*' := hstar a (List.mem_cons_self a as)
    have hstar' : ∀ c ∈ as, c ≠ '*' := fun c hc => hstar c (List.mem_cons_of_mem a hc)
    cases t with
    | nil => simp [globMatch, ha, List.isPrefixOf]
    | cons b bs =>
      simp only [List.cons_append, globMatch, if_neg ha, List.append_eq]
      rw [ih hstar' bs]
      by_cases hab : a = b <;> simp [List.isPrefixOf, hab]

theorem globMatch_wrapped_iff (lit : Str) (hstar : ∀ c ∈ lit, c ≠ '*') (t : Str) :
    globMatch ('*' :: (lit ++ ['*'])) t = containsSub t lit := by
  have hstarEq : globMatch ('*' :: (lit ++ ['*'])) t
      = t.tails.any (fun suf => globMatch (lit ++ ['*']) suf) := by
    simp [globMatch]
  rw [hstarEq]
  cases hc : containsSub t lit with
  | true =>
    obtain ⟨i, hi⟩ := (containsSub_iff t lit).mp hc
    refine List.any_eq_true.mpr ⟨t.drop i, (List.mem_tails _ _).mpr (List.drop_suffix i t), ?_⟩
    rw [globMatch_lit_star lit hstar (t.drop i)]
    exact hi
  | false =>
    refine List.any_eq_false.mpr ?_
    intro s hs hgs
    rw [globMatch_lit_star lit hstar s] at hgs
    obtain ⟨pre, hpre⟩ := (List.mem_tails _ _).mp hs
    have hocc : containsSub t lit = true := by
      refine (containsSub_iff t lit).mpr ⟨pre.length, ?_⟩
      rw [← hpre, List.drop_left]
      exact hgs
    rw [hc] at hocc
    cases hocc

/-! ## Claim C9 -/

/-- C9 counterexample: `zip_directory` file selection for a star-free
pattern is not case-insensitive.  The code lowercases only the pattern, not
the entry path, and the `glob` crate matches case-sensitively: the star-free
pattern `Read` occurs case-insensitively in the path `/d/Read.md`, yet the
entry is not selected (the built glob is `*read*`). -/
theorem c9_counterexample :
    ("Read".toList).contains '*' = false
    ∧ zipDirSelects ("Read".toList) ("/d/Read.md".toList) = false
    ∧ specCaseInsensitiveSubstr ("Read".toList) ("/d/Read.md".toList) = true := by
  decide

/-- C9 amended: for a pattern without `*` (and no other glob metacharacter,
so the embedded matcher agrees with the `glob` crate), a validated file
entry is selected iff the *lowercased* pattern occurs verbatim —
case-sensitively — as a substring of the entry's path with its original
casing. -/
theorem c9_lowercased_pattern_substring (pattern path : Str)
    (hstar : pattern.contains '*' = false)
    (hmeta : ∀ c ∈ pattern, c ≠ '?' ∧ c ≠ '[' ∧ c ≠ ']') :
    zipDirSelects pattern path = containsSub path (toLowerStr pattern) := by
  unfold zipDirSelects zipDirUpdatedPattern
  rw [if_neg (by rw [hstar]; simp)]
  exact globMatch_wrapped_iff (toLowerStr pattern) (toLowerStr_no_star pattern hstar) path

/-- C9 amended witness: the pattern `Read` does select a path containing the
lowercase substring `read`. -/
theorem c9_lowercased_pattern_substring_witness :
    zipDirSelects ("Read".toList) ("/d/read.md".toList)
      = containsSub ("/d/read.md".toList) (toLowerStr ("Read".toList)) :=
  c9_lowercased_pattern_substring ("Read".toList) ("/d/read.md".toList)
    (by decide) (by decide)

/-! ## Claim C6 -/

/-- C6: exact-match precedence and single replacement.  For every edit whose
normalized old text occurs verbatim in the current normalized content,
`apply_file_edits` replaces exactly the first occurrence (the returned
content is the splice at the least occurrence index, every earlier index
being a non-occurrence) and never enters the fuzzy line-matching fallback —
the result is the exact-branch splice whatever fuzzy-compatible windows
exist elsewhere in the content. -/
theorem c6_exact_match_precedence (content : Str) (e : EditOperation)
    (h : containsSub content (normalize_line_endings e.old_text) = true) :
    ∃ i, isSubAt (normalize_line_endings e.old_text) content i = true
      ∧ (∀ j, j < i → isSubAt (normalize_line_endings e.old_text) content j = false)
      ∧ applyOneEdit content e
          = .ok (content.take i ++ normalize_line_endings e.new_text
              ++ content.drop (i + (normalize_line_endings e.old_text).length)) := by
  cases hfo : firstOcc (normalize_line_endings e.old_text) content with
  | none => unfold containsSub at h; rw [hfo] at h; simp at h
  | some i =>
    obtain ⟨h1, h2⟩ := firstOcc_some _ _ _ hfo
    refine ⟨i, ?_, fun j hj => ?_, ?_⟩
    · unfold isSubAt; exact h1
    · unfold isSubAt; exact h2 j hj
    · unfold applyOneEdit
      rw [if_pos h]
      unfold replacen1
      rw [hfo]

/-- C6 witness: in a content with two occurrences of the old text, the first
occurrence (index 3) is replaced and indices 0-2 are non-occurrences. -/
theorem c6_exact_match_precedence_witness :
    ∃ i, isSubAt (normalize_line_endings ("foo".toList)) ("ab foo cd foo".toList) i = true
      ∧ (∀ j, j < i →
          isSubAt (normalize_line_endings ("foo".toList)) ("ab foo cd foo".toList) j = false)
      ∧ applyOneEdit ("ab foo cd foo".toList) ⟨"foo".toList, "XY".toList⟩
          = .ok (("ab foo cd foo".toList).take i ++ normalize_line_endings ("XY".toList)
              ++ ("ab foo cd foo".toList).drop
                  (i + (normalize_line_endings ("foo".toList)).length)) :=
  c6_exact_match_precedence ("ab foo cd foo".toList) ⟨"foo".toList, "XY".toList⟩ (by decide)

/-! ## Helper lemmas: the edit loop -/

theorem applyOneEdit_noMatch (c : Str) (e : EditOperation) (t : Str)
    (h : applyOneEdit c e = .noMatch t) : t = e.old_text := by
  simp only [applyOneEdit] at h
  split at h
  · cases h
  · split at h
    · cases h
    · split at h
      · cases h
      · injection h with h'
        exact h'.symm

theorem applyEditsLoop_noMatch_decomp :
    ∀ (edits : List EditOperation) (content t : Str),
      applyEditsLoop content edits = .noMatch t →
      ∃ pre e post c, edits = pre ++ e :: post
        ∧ contentAfter content pre = some c
        ∧ applyOneEdit c e = .noMatch t := by
  intro edits
  induction edits with
  | nil => intro content t h; cases h
  | cons e rest ih =>
    intro content t h
    simp only [applyEditsLoop] at h
    cases hstep : applyOneEdit content e with
    | ok c =>
      rw [hstep] at h
      obtain ⟨pre, e', post, c', h1, h2, h3⟩ := ih c t h
      exact ⟨e :: pre, e', post, c', by rw [h1]; rfl,
        by simp [contentAfter, hstep, h2], h3⟩
    | noMatch t' =>
      rw [hstep] at h
      injection h with h'
      exact ⟨[], e, rest, content, rfl, rfl, by rw [hstep, h']⟩
    | panicked => rw [hstep] at h; cases h

/-! ## Claim C3 -/

/-- C3 counterexample: the claim demands that an edit matching neither
exactly nor fuzzily make `apply_file_edits` return an error reporting the
edit's old text; but when such an edit's old text has more lines than the
content, the code panics instead of returning any error (the write still
never happens). -/
theorem c3_counterexample :
    apply_file_edits (fun _ _ => []) ("f".toList) ("ab".toList)
        [⟨"p\nq".toList, "r".toList⟩] (some false) none = (.panicked, []) := by
  decide

/-- C3 amended: edit application is all-or-nothing per file, except that an
unmatched edit with more lines than the content panics instead of returning
the error.  If the result is the error `err t`, then no write occurred and
the batch decomposes as `pre ++ e :: post` where every edit of `pre`
matched in order, `e` is the first failing edit, no later edit was
attempted, and `t` is exactly `e`'s old text; a panic also writes nothing;
if `dry_run` is `some true` nothing is ever written regardless of
`save_to`; and on success without dry-run exactly one write happens, to
`save_to` when provided and to the validated path otherwise. -/
theorem c3_all_or_nothing (mkDiff : Str → Str → Str) (vp content : Str)
    (edits : List EditOperation) (dry_run : Option Bool) (save_to : Option Str) :
    (∀ t, (apply_file_edits mkDiff vp content edits dry_run save_to).1 = .err t →
      (apply_file_edits mkDiff vp content edits dry_run save_to).2 = []
      ∧ ∃ pre e post c, edits = pre ++ e :: post
          ∧ contentAfter (normalize_line_endings content) pre = some c
          ∧ applyOneEdit c e = .noMatch e.old_text
          ∧ t = e.old_text)
    ∧ ((apply_file_edits mkDiff vp content edits dry_run save_to).1 = .panicked →
        (apply_file_edits mkDiff vp content edits dry_run save_to).2 = [])
    ∧ (dry_run = some true →
        (apply_file_edits mkDiff vp content edits dry_run save_to).2 = [])
    ∧ (∀ d, (apply_file_edits mkDiff vp content edits dry_run save_to).1 = .ok d →
        dry_run ≠ some true →
        ∃ w, (apply_file_edits mkDiff vp content edits dry_run save_to).2 = [w]
          ∧ w.target = save_to.getD vp) := by
  cases hloop : applyEditsLoop (normalize_line_endings content) edits with
  | noMatch t0 =>
    have hR : apply_file_edits mkDiff vp content edits dry_run save_to
        = (.err t0, []) := by
      simp [apply_file_edits, hloop]
    refine ⟨?_, ?_, ?_, ?_⟩
    · intro t ht
      rw [hR] at ht
      simp only at ht
      injection ht with ht'
      subst ht'
      obtain ⟨pre, e, post, c, h1, h2, h3⟩ :=
        applyEditsLoop_noMatch_decomp edits (normalize_line_endings content) t0 hloop
      have hte : t0 = e.old_text := applyOneEdit_noMatch c e t0 h3
      rw [hte] at h3
      exact ⟨by rw [hR], pre, e, post, c, h1, h2, h3, hte⟩
    · intro hp; rw [hR] at hp; simp only at hp; cases hp
    · intro _; rw [hR]
    · intro d hd; rw [hR] at hd; simp only at hd; cases hd
  | panicked =>
    have hR : apply_file_edits mkDiff vp content edits dry_run save_to
        = (.panicked, []) := by
      simp [apply_file_edits, hloop]
    refine ⟨?_, ?_, ?_, ?_⟩
    · intro t ht; rw [hR] at ht; simp only at ht; cases ht
    · intro _; rw [hR]
    · intro _; rw [hR]
    · intro d hd; rw [hR] at hd; simp only at hd; cases hd
  | ok m =>
    by_cases hdry : dry_run = some true
    · have hgetD : dry_run.getD false = true := by rw [hdry]; rfl
      have hR : apply_file_edits mkDiff vp content edits dry_run save_to
          = (.ok (formatDiff (mkDiff (normalize_line_endings content) m)), []) := by
        simp [apply_file_edits, hloop, hgetD]
      refine ⟨?_, ?_, ?_, ?_⟩
      · intro t ht; rw [hR] at ht; simp only at ht; cases ht
      · intro hp; rw [hR] at hp; simp only at hp; cases hp
      · intro _; rw [hR]
      · intro d hd hne; exact absurd hdry hne
    · have hgetD : dry_run.getD false = false := by
        cases dry_run with
        | none => rfl
        | some b =>
          cases b with
          | false => rfl
          | true => exact absurd rfl hdry
      have hR : apply_file_edits mkDiff vp content edits dry_run save_to
          = (.ok (formatDiff (mkDiff (normalize_line_endings content) m)),
             [⟨save_to.getD vp,
               replaceNlWith (detect_line_ending content) m⟩]) := by
        simp [apply_file_edits, hloop, hgetD]
      refine ⟨?_, ?_, ?_, ?_⟩
      · intro t ht; rw [hR] at ht; simp only at ht; cases ht
      · intro hp; rw [hR] at hp; simp only at hp; cases hp
      · intro hd; exact absurd hd hdry
      · intro d hd hne
        exact ⟨⟨save_to.getD vp, replaceNlWith (detect_line_ending content) m⟩,
          by rw [hR], rfl⟩

/-- C3 amended witness: a batch whose single edit does not match writes
nothing. -/
theorem c3_all_or_nothing_witness :
    (apply_file_edits (fun _ _ => []) ("f".toList) ("abc".toList)
        [⟨"zzz".toList, "q".toList⟩] (some false) none).2 = [] :=
  ((c3_all_or_nothing (fun _ _ => []) ("f".toList) ("abc".toList)
      [⟨"zzz".toList, "q".toList⟩] (some false) none).1
    ("zzz".toList) (by decide)).1

/-! ## Claim C10 -/

/-- C10: the claimed totality fails — evaluation of the code at the failing
input.  With content `"a"` (one line) and a single edit whose old text
`"x\ny"` has two lines and no exact match, the fuzzy window scan's bound
`content_lines.len() - old_lines.len()` is `1 - 2` in `usize`: the Rust code
panics (debug: subtraction overflow; release: wrapped bound then an
out-of-range slice) instead of returning the NoMatch error the claim
asserts. -/
theorem c10_fuzzy_scan_underflow :
    (splitNl (trimEnd (normalize_line_endings ("x\ny".toList)))).length = 2
    ∧ (splitNl (trimEnd (normalize_line_endings ("a".toList)))).length = 1
    ∧ containsSub ("a".toList) (normalize_line_endings ("x\ny".toList)) = false
    ∧ applyOneEdit ("a".toList) ⟨"x\ny".toList, "z".toList⟩ = .panicked
    ∧ apply_file_edits (fun _ _ => []) ("f".toList) ("a".toList)
        [⟨"x\ny".toList, "z".toList⟩] none none = (.panicked, []) := by
  decide

/-! ## Helper lemmas: carriage-return freedom through the edit engine -/

theorem noCR_normalize (s : Str) : '\r' ∉ normalize_line_endings s := by
  intro h
  obtain ⟨a, _, ha⟩ := List.mem_map.mp h
  by_cases hc : a = '\r'
  · rw [if_pos hc] at ha
    cases ha
  · rw [if_neg hc] at ha
    exact hc ha

theorem splitNl_mem : ∀ (s : Str), ∀ l ∈ splitNl s, ∀ c ∈ l, c ∈ s := by
  intro s
  induction s with
  | nil =>
    intro l hl c hc
    simp only [splitNl, List.mem_singleton] at hl
    subst hl
    cases hc
  | cons a rest ih =>
    by_cases ha : a = '\n'
    · intro l hl c hc
      simp only [splitNl, if_pos ha] at hl
      rcases List.mem_cons.mp hl with rfl | hl'
      · cases hc
      · exact List.mem_cons_of_mem a (ih l hl' c hc)
    · intro l hl c hc
      simp only [splitNl, if_neg ha] at hl
      cases hsp : splitNl rest with
      | nil =>
        rw [hsp] at hl
        simp only [List.mem_singleton] at hl
        subst hl
        have hca : c = a := List.mem_singleton.mp hc
        rw [hca]
        exact List.mem_cons_self a rest
      | cons l' ls =>
        rw [hsp] at hl
        rcases List.mem_cons.mp hl with rfl | hl'
        · rcases List.mem_cons.mp hc with rfl | hc'
          · exact List.mem_cons_self c rest
          · have hl'mem : l' ∈ splitNl rest := by rw [hsp]; exact List.mem_cons_self l' ls
            exact List.mem_cons_of_mem a (ih l' hl'mem c hc')
        · have hlmem : l ∈ splitNl rest := by rw [hsp]; exact List.mem_cons_of_mem l' hl'
          exact List.mem_cons_of_mem a (ih l hlmem c hc)

theorem trimEnd_subset (s : Str) : ∀ c ∈ trimEnd s, c ∈ s := by
  intro c hc
  unfold trimEnd at hc
  rw [List.mem_reverse] at hc
  have := (List.dropWhile_sublist (fun c : Char => c.isWhitespace)).subset hc
  rwa [List.mem_reverse] at this

theorem trimStart_subset (s : Str) : ∀ c ∈ trimStart s, c ∈ s := by
  intro c hc
  unfold trimStart at hc
  exact (List.dropWhile_sublist (fun c : Char => c.isWhitespace)).subset hc

theorem leadingWs_subset (s : Str) : ∀ c ∈ leadingWs s, c ∈ s := by
  intro c hc
  unfold leadingWs at hc
  exact (List.takeWhile_sublist (fun c : Char => c.isWhitespace)).subset hc

theorem joinNl_mem : ∀ (ls : List Str), ∀ c ∈ joinNl ls, c = '\n' ∨ ∃ l ∈ ls, c ∈ l := by
  intro ls
  induction ls with
  | nil => intro c hc; cases hc
  | cons l rest ih =>
    cases rest with
    | nil =>
      intro c hc
      exact Or.inr ⟨l, List.mem_cons_self l [], hc⟩
    | cons l2 rest2 =>
      intro c hc
      rw [show joinNl (l :: l2 :: rest2) = l ++ '\n' :: joinNl (l2 :: rest2) from rfl] at hc
      rcases List.mem_append.mp hc with hcl | hctail
      · exact Or.inr ⟨l, List.mem_cons_self l _, hcl⟩
      · rcases List.mem_cons.mp hctail with rfl | hcj
        · exact Or.inl rfl
        · rcases ih c hcj with h | ⟨l', hl', hcl'⟩
          · exact Or.inl h
          · exact Or.inr ⟨l', List.mem_cons_of_mem l hl', hcl'⟩

theorem indentChar_ne_cr (oi : Str) : indentChar oi ≠ '\r' := by
  unfold indentChar
  split <;> decide

theorem rebuildLines_mem (oi : Str) (ol : List Str) (nn : Str) :
    ∀ l ∈ rebuildLines oi ol nn, ∀ c ∈ l,
      c ∈ oi ∨ c = indentChar oi ∨ ∃ line ∈ splitNl nn, c ∈ line := by
  intro l hl c hc
  unfold rebuildLines at hl
  obtain ⟨p, hp, hpl⟩ := List.mem_map.mp hl
  have hline : p.2 ∈ splitNl nn := by
    have := List.mem_enum_iff_get?.mp hp
    exact List.get?_mem this
  by_cases hj : p.1 = 0
  · rw [if_pos hj] at hpl
    rw [← hpl] at hc
    rcases List.mem_append.mp hc with h | h
    · exact Or.inl h
    · exact Or.inr (Or.inr ⟨p.2, hline, trimStart_subset p.2 c h⟩)
  · rw [if_neg hj] at hpl
    rw [← hpl] at hc
    rcases List.mem_append.mp hc with h | h
    · rcases List.mem_append.mp h with h2 | h2
      · exact Or.inl h2
      · exact Or.inr (Or.inl (List.eq_of_mem_replicate h2))
    · exact Or.inr (Or.inr ⟨p.2, hline, trimStart_subset p.2 c h⟩)

theorem replacen1_noCR (h n r : Str) (hh : '\r' ∉ h) (hr : '\r' ∉ r) :
    '\r' ∉ replacen1 h n r := by
  unfold replacen1
  cases hfo : firstOcc n h with
  | none => exact hh
  | some i =>
    intro hm
    rcases List.mem_append.mp hm with hm1 | hm2
    · rcases List.mem_append.mp hm1 with h1 | h1
      · exact hh (List.take_subset i h h1)
      · exact hr h1
    · exact hh (List.drop_subset _ h hm2)

theorem applyOneEdit_ok_noCR (content : Str) (e : EditOperation) (out : Str)
    (hcr : '\r' ∉ content) (h : applyOneEdit content e = .ok out) : '\r' ∉ out := by
  simp only [applyOneEdit] at h
  split at h
  · injection h with h'
    rw [← h']
    exact replacen1_noCR content _ _ hcr (noCR_normalize e.new_text)
  · split at h
    · cases h
    · split at h
      case h_1 i hfw =>
        injection h with h'
        rw [← h']
        intro hm
        rcases joinNl_mem _ _ hm with hnl | ⟨l, hl, hcl⟩
        · cases hnl
        · unfold spliceList at hl
          have hcontentline : ∀ l', l' ∈ splitNl (trimEnd content) → '\r' ∉ l' := by
            intro l' hl' hmem
            exact hcr (trimEnd_subset content _ (splitNl_mem _ l' hl' _ hmem))
          rcases List.mem_append.mp hl with hl1 | hl2
          · rcases List.mem_append.mp hl1 with h1 | h1
            · exact hcontentline l (List.take_subset _ _ h1) hcl
            · -- l is one of the rebuilt replacement lines
              rcases rebuildLines_mem _ _ _ l h1 _ hcl with hoi | hic | ⟨line, hlin, hclin⟩
              · -- from the original indentation of the first matched line
                rcases hg : (splitNl (trimEnd content)).get? i with _ | l0
                · rw [hg] at hoi
                  cases hoi
                · rw [hg] at hoi
                  exact hcontentline l0 (List.get?_mem hg) (leadingWs_subset l0 _ hoi)
              · exact indentChar_ne_cr _ hic.symm
              · exact noCR_normalize e.new_text
                  (splitNl_mem _ line hlin _ hclin)
          · exact hcontentline l (List.drop_subset _ _ hl2) hcl
      case h_2 => cases h

theorem applyEditsLoop_ok_noCR :
    ∀ (edits : List EditOperation) (content m : Str), '\r' ∉ content →
      applyEditsLoop content edits = .ok m → '\r' ∉ m := by
  intro edits
  induction edits with
  | nil =>
    intro content m hcr h
    injection h with h'
    rwa [← h']
  | cons e rest ih =>
    intro content m hcr h
    simp only [applyEditsLoop] at h
    cases hstep : applyOneEdit content e with
    | ok c =>
      rw [hstep] at h
      exact ih c m (applyOneEdit_ok_noCR content e c hcr hstep) h
    | noMatch t => rw [hstep] at h; cases h
    | panicked => rw [hstep] at h; cases h

theorem crlfOnly_cons_other (c : Char) (s : Str) (hc : c ≠ '\r') (hcn : c ≠ '\n') :
    crlfOnly (c :: s) = crlfOnly s := by
  cases s with
  | nil => simp [crlfOnly, hc, hcn]
  | cons c2 rest => simp [crlfOnly, hc, hcn]

theorem crlfOnly_crlf (s : Str) : crlfOnly ('\r' :: '\n' :: s) = crlfOnly s := by
  simp [crlfOnly]

theorem crlfOnly_replaceNl : ∀ (m : Str), '\r' ∉ m →
    crlfOnly (replaceNlWith ['\r', '\n'] m) = true := by
  intro m
  induction m with
  | nil => intro _; rfl
  | cons c rest ih =>
    intro h
    have hc : c ≠ '\r' := fun hh => h (hh ▸ List.mem_cons_self c rest)
    have hrest : '\r' ∉ rest := fun hh => h (List.mem_cons_of_mem c hh)
    by_cases hcn : c = '\n'
    · subst hcn
      rw [show replaceNlWith ['\r', '\n'] ('\n' :: rest)
          = '\r' :: '\n' :: replaceNlWith ['\r', '\n'] rest from rfl]
      rw [crlfOnly_crlf]
      exact ih hrest
    · rw [show replaceNlWith ['\r', '\n'] (c :: rest)
          = c :: replaceNlWith ['\r', '\n'] rest from by simp [replaceNlWith, hcn]]
      rw [crlfOnly_cons_other c _ hc hcn]
      exact ih hrest

/-! ## Claim C7 -/

/-- C7: line-ending preservation.  For every file content containing at
least one CRLF sequence, the dominant style is detected as `\r\n`, and a
successful non-dry-run `apply_file_edits` (edits expressed with `\n`
endings after normalization) performs its single write with content in
which every line break is a full `\r\n` pair — the final content is
converted back to the detected style before writing. -/
theorem c7_line_ending_preservation (mkDiff : Str → Str → Str) (vp content : Str)
    (edits : List EditOperation) (dry_run : Option Bool) (save_to : Option Str)
    (d : Str) (w : WriteOp)
    (hcrlf : containsSub content ['\r', '\n'] = true)
    (hok : apply_file_edits mkDiff vp content edits dry_run save_to = (.ok d, [w])) :
    detect_line_ending content = ['\r', '\n'] ∧ crlfOnly w.content = true := by
  have hdet : detect_line_ending content = ['\r', '\n'] := by
    unfold detect_line_ending
    rw [if_pos hcrlf]
  refine ⟨hdet, ?_⟩
  simp only [apply_file_edits] at hok
  cases hloop : applyEditsLoop (normalize_line_endings content) edits with
  | noMatch t => rw [hloop] at hok; simp at hok
  | panicked => rw [hloop] at hok; simp at hok
  | ok m =>
    rw [hloop] at hok
    simp only at hok
    by_cases hdry : dry_run.getD false = true
    · rw [if_pos hdry] at hok
      have := congrArg Prod.snd hok
      simp at this
    · rw [if_neg hdry] at hok
      have hsnd := congrArg Prod.snd hok
      simp only at hsnd
      have hw : w = ⟨save_to.getD vp, replaceNlWith (detect_line_ending content) m⟩ := by
        injection hsnd with h1 _
        exact h1.symm
      rw [hw]
      show crlfOnly (replaceNlWith (detect_line_ending content) m) = true
      rw [hdet]
      exact crlfOnly_replaceNl m
        (applyEditsLoop_ok_noCR edits (normalize_line_endings content) m
          (noCR_normalize content) hloop)

/-- C7 witness: editing a CRLF file with an LF-expressed edit yields a write
whose line breaks are all CRLF. -/
theorem c7_line_ending_preservation_witness :
    detect_line_ending ("a\r\nb".toList) = ['\r', '\n']
    ∧ crlfOnly (WriteOp.mk ("f".toList) ("c\r\nb".toList)).content = true :=
  c7_line_ending_preservation (fun _ _ => []) ("f".toList) ("a\r\nb".toList)
    [⟨"a".toList, "c".toList⟩] (some false) none
    (formatDiff []) ⟨"f".toList, "c\r\nb".toList⟩ (by decide) (by decide)

end FsService
